import Mathlib

/-!
Shallow embedding of `src/distrod/libs/src/envfile.rs` (wsl-distrod).

Strings are modelled as `List Char`; the nom byte-level combinators of the
source are rendered as deterministic functions on character lists.  For valid
UTF-8 input every byte-level decision of the source (`is_alphabetic`,
`none_of "\n# \t\\"`, `line_ending`, ...) is made on an ASCII byte, so the
character-level model decomposes the input exactly as the byte-level parser
does, and `String::from_utf8_lossy` is the identity.
-/

namespace Envfile

/-- Character strings of the model. -/
abbrev Str := List Char

/-- ASCII single quote, written numerically. -/
def squote : Char := Char.ofNat 39

/-- Space or tab, the characters accepted by nom `space0` / `space1`. -/
def isSp (c : Char) : Bool := c = ' ' || c = '\t'

/-- Characters allowed in a key by `declaration_key`:
`is_alphabetic(c) || is_digit(c) || c == b'_'`. -/
def keyChar (c : Char) : Bool := c.isAlpha || c.isDigit || c = '_'

/-- Characters accepted by the `regular_char` branch of `declaration_value`:
`none_of("\n# \t\\")`. -/
def regularChar (c : Char) : Bool :=
  !(c = '\n' || c = '#' || c = ' ' || c = '\t' || c = '\\')

/-- Characters that are not a newline, as used by `following_characters`
(`take_while(|c| !is_newline(c))`) and by `is_not("\n")`. -/
def nonNl (c : Char) : Bool := !(c = '\n')

/-- Model of nom `line_ending`: consumes `"\n"` or `"\r\n"`, fails otherwise.
Returns the consumed text and the rest. -/
def lineEnding : Str → Option (Str × Str)
  | [] => none
  | c :: rest =>
    if c = '\n' then some (['\n'], rest)
    else if c = '\r' then
      match rest with
      | [] => none
      | c2 :: rest2 => if c2 = '\n' then some (['\r', '\n'], rest2) else none
    else none

/-- Fuel-indexed run of `many0(alt((regular_char, escaped_char)))` inside
`declaration_value`: a maximal run of regular characters and
backslash-escaped pairs (`recognize(pair(char('\\'), take(1)))`).
Returns the consumed text and the rest; a trailing lone backslash is not
consumed (the escape needs one following character).  Every step consumes at
least one character, so `fuel = length` never runs out. -/
def valRunAux : Nat → Str → Str × Str
  | 0, l => ([], l)
  | _ + 1, [] => ([], [])
  | fuel + 1, c :: rest =>
    if regularChar c then
      let p := valRunAux fuel rest
      (c :: p.1, p.2)
    else if c = '\\' then
      match rest with
      | [] => ([], [c])
      | c2 :: rest2 =>
        let p := valRunAux fuel rest2
        (c :: c2 :: p.1, p.2)
    else ([], c :: rest)

/-- The maximal run of regular and escaped characters. -/
def valRun (l : Str) : Str × Str := valRunAux l.length l

/-- Loop of `separated_list0(space1, many1(...))` after the first item:
repeatedly consume `space1` followed by a nonempty run; backtrack the
separator when no run follows.  Fuel-indexed; `fuel = length` suffices. -/
def sepTailAux : Nat → Str → Str × Str
  | 0, l => ([], l)
  | fuel + 1, l =>
    let sp := l.takeWhile isSp
    if sp.isEmpty then ([], l)
    else
      let r := l.dropWhile isSp
      let p := valRun r
      if p.1.isEmpty then ([], l)
      else
        let q := sepTailAux fuel p.2
        (sp ++ p.1 ++ q.1, q.2)

/-- Model of `declaration_value`:
`recognize(separated_list0(space1, many1(alt((regular_char, escaped_char)))))`.
Never fails; may consume nothing. -/
def declarationValue (l : Str) : Str × Str :=
  let p := valRun l
  if p.1.isEmpty then ([], l)
  else
    let q := sepTailAux p.2.length p.2
    (p.1 ++ q.1, q.2)

/-- The literal `export` keyword matched by `tag(b"export")`. -/
def exportKw : Str := "export".toList

/-- Model of `leading_characters`:
`recognize(tuple((space0, opt(tag(b"export")), space0)))`. -/
def leadingCharacters (l : Str) : Str × Str :=
  let s1 := l.takeWhile isSp
  let r1 := l.dropWhile isSp
  if exportKw.isPrefixOf r1 then
    let r2 := r1.drop exportKw.length
    (s1 ++ exportKw ++ r2.takeWhile isSp, r2.dropWhile isSp)
  else (s1, r1)

/-- Model of `declaration_key`: `take_while1` over `keyChar`; fails when the
input does not start with a key character. -/
def declarationKey (l : Str) : Option (Str × Str) :=
  let k := l.takeWhile keyChar
  if k.isEmpty then none else some (k, l.dropWhile keyChar)

/-- One recognized assignment, `EnvStatement` of the source. -/
structure EnvStatement where
  key : Str
  value : Str
  leading_characters : Str
  following_characters : Str
deriving DecidableEq, Repr

/-- Model of `EnvStatement::parse`: leading characters, key, `=`, value,
following characters, optional line ending. -/
def EnvStatement.parse (l : Str) : Option (EnvStatement × Str) :=
  let lead := leadingCharacters l
  match declarationKey lead.2 with
  | none => none
  | some kr =>
    match kr.2 with
    | [] => none
    | c :: r3 =>
      if c = '=' then
        let v := declarationValue r3
        let f := v.2.takeWhile nonNl
        let r5 := v.2.dropWhile nonNl
        match lineEnding r5 with
        | some p => some (⟨kr.1, v.1, lead.1, f⟩, p.2)
        | none => some (⟨kr.1, v.1, lead.1, f⟩, r5)
      else none

/-- Model of `EnvStatement::serialize`. -/
def EnvStatement.serialize (s : EnvStatement) : Str :=
  s.leading_characters ++ s.key ++ '=' :: (s.value ++ s.following_characters ++ ['\n'])

/-- One line of the document, `EnvFileLine` of the source. -/
inductive EnvFileLine where
  | Env (s : EnvStatement)
  | Other (text : Str)
deriving DecidableEq, Repr

/-- Model of `EnvFileLine::parse`: an assignment, else an opaque line (a
nonempty run of non-newline characters with optional terminator, or a bare
terminator); the opaque text is stored with a `"\n"` appended. -/
def EnvFileLine.parse (l : Str) : Option (EnvFileLine × Str) :=
  match EnvStatement.parse l with
  | some p => some (.Env p.1, p.2)
  | none =>
    let s := l.takeWhile nonNl
    if s.isEmpty then
      match lineEnding l with
      | some p => some (.Other ['\n'], p.2)
      | none => none
    else
      let r := l.dropWhile nonNl
      match lineEnding r with
      | some p => some (.Other (s ++ ['\n']), p.2)
      | none => some (.Other (s ++ ['\n']), r)

/-- Model of `EnvFileLine::serialize`. -/
def EnvFileLine.serialize : EnvFileLine → Str
  | .Env s => s.serialize
  | .Other t => t

/-- Model of `EnvFileLines::serialize`: concatenation of the serialized
lines. -/
def serializeLines (lines : List EnvFileLine) : Str :=
  (lines.map EnvFileLine.serialize).flatten

/-- Fuel-indexed loop of `many1(EnvFileLine::parse)`. -/
def parseLinesAux : Nat → Str → List EnvFileLine
  | 0, _ => []
  | _ + 1, [] => []
  | fuel + 1, c :: rest =>
    match EnvFileLine.parse (c :: rest) with
    | some p => p.1 :: parseLinesAux fuel p.2
    | none => []

/-- Model of `EnvFileLines::parse`: empty input yields the empty document,
otherwise `many1(EnvFileLine::parse)` (which consumes the whole input, each
step consuming at least one character). -/
def parseLines (l : Str) : List EnvFileLine := parseLinesAux l.length l

/-- Model of `single_quote_str_for_shell`: the `replace` of every single
quote by the POSIX escape sequence `'"'"'`. -/
def shellEscape : Str → Str
  | [] => []
  | c :: rest =>
    if c = squote then squote :: '"' :: squote :: '"' :: squote :: shellEscape rest
    else c :: shellEscape rest

/-- Model of `single_quote_str_for_shell`: wrap in single quotes, escaping
embedded single quotes. -/
def single_quote_str_for_shell (s : Str) : Str :=
  squote :: (shellEscape s ++ [squote])

/-- Index maps of `EnvFile` (`HashMap<String, usize>` in the source),
modelled extensionally. -/
def EnvMap := Str → Option Nat

/-- Model of `HashMap::insert` on the extensional map. -/
def EnvMap.insert (m : EnvMap) (k : Str) (i : Nat) : EnvMap :=
  fun x => if x = k then some i else m x

/-- Document plus variable index, `EnvFile` of the source (the `file_path`
field and the file handles are outside the embedding). -/
structure EnvFile where
  envs : EnvMap
  env_file_lines : List EnvFileLine

/-- Index construction loop of `EnvFile::open`: record the position of every
`Env` line, overwriting on repeats. -/
def buildIndexAux (m : EnvMap) (i : Nat) : List EnvFileLine → EnvMap
  | [] => m
  | line :: rest =>
    match line with
    | .Env s => buildIndexAux (m.insert s.key i) (i + 1) rest
    | .Other _ => buildIndexAux m (i + 1) rest

/-- Model of `EnvFile::open` applied to the content of an existing file:
parse the content and build the index (file I/O is outside the embedding;
a missing file corresponds to `openContent []`, the empty document). -/
def EnvFile.openContent (content : Str) : EnvFile :=
  let lines := parseLines content
  { envs := buildIndexAux (fun _ => none) 0 lines, env_file_lines := lines }

/-- Model of `EnvFile::get_env`.  The `unreachable!` arm of the source (an
indexed position not holding an `Env` line) is modelled as `none`. -/
def EnvFile.get_env (e : EnvFile) (key : Str) : Option Str :=
  match e.envs key with
  | none => none
  | some i =>
    match e.env_file_lines[i]? with
    | some (.Env s) => some s.value
    | _ => none

/-- In-place value update of the line at index `i`, as in the `Some(index)`
arm of `put_env_with_no_sanity_check`.  The `unreachable!` arm (the indexed
line not being an `Env`) is modelled as the identity. -/
def setEnvValue (lines : List EnvFileLine) (i : Nat) (v : Str) : List EnvFileLine :=
  match lines[i]? with
  | some (.Env s) => lines.set i (.Env { s with value := v })
  | _ => lines

/-- Model of `EnvFile::put_env_with_no_sanity_check`. -/
def EnvFile.put_env_with_no_sanity_check (e : EnvFile) (key value : Str) : EnvFile :=
  match e.envs key with
  | some i => { e with env_file_lines := setEnvValue e.env_file_lines i value }
  | none =>
    { envs := e.envs.insert key e.env_file_lines.length,
      env_file_lines :=
        e.env_file_lines ++ [.Env ⟨key, value, [], []⟩] }

/-- Model of `EnvFile::put_env`.  The source `assert!`s that the value holds
no newline and no backslash; the panic is modelled as `none`. -/
def EnvFile.put_env (e : EnvFile) (key value : Str) : Option EnvFile :=
  if value.contains '\n' || value.contains '\\' then none
  else some (e.put_env_with_no_sanity_check key (single_quote_str_for_shell value))

/-- Split on `:` as Rust `str::split(':')`: always at least one (possibly
empty) segment. -/
def splitOnColon : Str → List Str
  | [] => [[]]
  | c :: rest =>
    if c = ':' then [] :: splitOnColon rest
    else
      match splitOnColon rest with
      | s :: ss => (c :: s) :: ss
      | [] => [[c]]

/-- Join segments with `:`, as `Vec::join(":")`. -/
def joinColon : List Str → Str
  | [] => []
  | [s] => s
  | s :: rest => s ++ ':' :: joinColon rest

/-- PATH merge engine, `PathVariable` of the source.  The `HashSet` is
modelled as the list of its insertions, queried by membership. -/
structure PathVariable where
  parsed_paths : List Str
  added_paths : List Str
  path_set : List Str
  surrounding_quote : Option Char

/-- Quote-detection condition of `PathVariable::parse` for one candidate
quote character: the first segment starts with it but does not end with it,
and the last segment ends with it but does not start with it. -/
def qCond (paths : List Str) (q : Char) : Bool :=
  (match paths.head? with
   | some p => p.head? = some q && !(p.getLast? = some q)
   | none => false)
  &&
  (match paths.getLast? with
   | some p => p.getLast? = some q && !(p.head? = some q)
   | none => false)

/-- The `find` over the quote candidates `['"', '\'']`. -/
def findQuote (paths : List Str) : Option Char :=
  if qCond paths '"' then some '"'
  else if qCond paths squote then some squote
  else none

/-- Drop the last character of the last segment, as
`paths[len-1] = &paths[len-1][..len-1]`. -/
def stripLastSeg : List Str → List Str
  | [] => []
  | [p] => [p.dropLast]
  | p :: rest => p :: stripLastSeg rest

/-- Strip one character from the front of the first segment and one from the
back of the last segment (applied in this order, so a single segment loses
both). -/
def stripFirstLast : List Str → List Str
  | [] => []
  | p :: rest => stripLastSeg ((p.drop 1) :: rest)

/-- Model of `PathVariable::parse`. -/
def PathVariable.parse (val : Str) : PathVariable :=
  let paths := splitOnColon val
  let sq := findQuote paths
  let paths2 := match sq with
    | some _ => stripFirstLast paths
    | none => paths
  { parsed_paths := paths2,
    added_paths := [],
    path_set := paths2,
    surrounding_quote := sq }

/-- Model of `PathVariable::quote_path_if_necessary`. -/
def PathVariable.quote_path_if_necessary (pv : PathVariable) (path : Str) : Str :=
  match pv.surrounding_quote with
  | none => single_quote_str_for_shell path
  | some _ => path

/-- Model of `PathVariable::serialize`: added paths (quoted if necessary) in
reverse insertion order, then the parsed paths, colon-joined, the whole
wrapped in the surrounding quote when one was detected. -/
def PathVariable.serialize (pv : PathVariable) : Str :=
  let joined :=
    joinColon ((pv.added_paths.map pv.quote_path_if_necessary).reverse ++ pv.parsed_paths)
  match pv.surrounding_quote with
  | some q => q :: (joined ++ [q])
  | none => joined

/-- Model of `PathVariable::put_path`: no-op when the path is already in the
set, otherwise append to `added_paths` and to the set. -/
def PathVariable.put_path (pv : PathVariable) (path_val : Str) : PathVariable :=
  if path_val ∈ pv.path_set then pv
  else
    { pv with
      added_paths := pv.added_paths ++ [path_val],
      path_set := pv.path_set ++ [path_val] }

/-- Model of `PathVariable::iter`: added paths most-recent first, then the
parsed paths. -/
def PathVariable.iter (pv : PathVariable) : List Str :=
  pv.added_paths.reverse ++ pv.parsed_paths

/-- The `DEFAULT_PATH` constant of `EnvFile::put_path`, single quotes
included. -/
def DEFAULT_PATH : Str :=
  squote ::
    ("/usr/local/sbin:/usr/local/bin:/usr/sbin:/usr/bin:/sbin:/bin:/usr/games:/usr/local/games".toList
      ++ [squote])

/-- Model of `EnvFile::put_path`.  The source `assert!`s that the directory
holds no quote, backslash, or newline; the panic is modelled as `none`. -/
def EnvFile.put_path (e : EnvFile) (path_val : Str) : Option EnvFile :=
  if path_val.contains '"' || path_val.contains squote
      || path_val.contains '\\' || path_val.contains '\n' then none
  else
    let current := (e.get_env ("PATH".toList)).getD DEFAULT_PATH
    let pv := (PathVariable.parse current).put_path path_val
    some (e.put_env_with_no_sanity_check ("PATH".toList) pv.serialize)

/-- Association maps of `EnvShellScript` (`HashMap` in the source), modelled
as association lists with distinct keys; `insert` removes the key first and
appends, as only the entry set is observable (the generator sorts). -/
def mapInsert {α : Type} (m : List (Str × α)) (k : Str) (v : α) : List (Str × α) :=
  (m.filter fun p => !(p.1 = k)) ++ [(k, v)]

/-- Lookup in the association-list map (first entry with the key; keys are
kept distinct by `mapInsert`). -/
def mapLookup {α : Type} : List (Str × α) → Str → Option α
  | [], _ => none
  | p :: rest, k => if p.1 = k then some p.2 else mapLookup rest k

/-- Accumulator of the shell-script generator, `EnvShellScript` of the
source. -/
structure EnvShellScript where
  envs : List (Str × Str)
  paths : List (Str × Bool)

/-- Model of `EnvShellScript::new`. -/
def EnvShellScript.new : EnvShellScript := ⟨[], []⟩

/-- Model of `EnvShellScript::put_env`. -/
def EnvShellScript.put_env (s : EnvShellScript) (k v : Str) : EnvShellScript :=
  { s with envs := mapInsert s.envs k v }

/-- Model of `EnvShellScript::put_path`. -/
def EnvShellScript.put_path (s : EnvShellScript) (p : Str) (prepends : Bool) : EnvShellScript :=
  { s with paths := mapInsert s.paths p prepends }

/-- Lexicographic byte order on strings, the `Ord` used by Rust `String`
(UTF-8 byte order equals code-point order). -/
def lexLe : Str → Str → Bool
  | [], _ => true
  | _ :: _, [] => false
  | a :: as, b :: bs => if a = b then lexLe as bs else decide (a < b)

/-- Order used by `envs.sort_by(|(key_a, _), (key_b, _)| key_a.cmp(key_b))`. -/
def envLe (p q : Str × Str) : Bool := lexLe p.1 q.1

/-- Order used by `paths.sort()`: pairs compared by key, then by flag
(`false < true`). -/
def pathLe (p q : Str × Bool) : Bool :=
  if p.1 = q.1 then !p.2 || q.2 else lexLe p.1 q.1

/-- Guarded-export line emitted for one variable by `gen_shell_script`. -/
def envLineFor (k v : Str) : Str :=
  ("if [ -z \"$\x7b".toList ++ k ++ ":-\x7d\" ]; then export ".toList ++ k
    ++ '=' :: single_quote_str_for_shell v) ++ "; fi\n".toList

/-- PATH block emitted for one directory by `gen_shell_script`. -/
def pathBlockFor (p : Str) (prepends : Bool) : Str :=
  ("__CANDIDATE_PATH=".toList ++ single_quote_str_for_shell p
    ++ "\n__COLON_PATH=\":$\x7bPATH\x7d:\"\n".toList)
  ++ (if prepends then
        "if [ \"$\x7b__COLON_PATH#*:$\x7b__CANDIDATE_PATH\x7d:\x7d\" = \"$\x7b__COLON_PATH\x7d\" ]; then export PATH=\"$\x7b__CANDIDATE_PATH\x7d:$\x7bPATH\x7d\"; fi\n".toList
      else
        "if [ \"$\x7b__COLON_PATH#*:$\x7b__CANDIDATE_PATH\x7d:\x7d\" = \"$\x7b__COLON_PATH\x7d\" ]; then export PATH=\"$\x7bPATH\x7d:$\x7b__CANDIDATE_PATH\x7d\"; fi\n".toList)
  ++ "unset __CANDIDATE_PATH\nunset __COLON_PATH\n".toList

/-- Model of `EnvShellScript::gen_shell_script`: guarded exports for the
variables sorted by name, then one block per path sorted by key. -/
def EnvShellScript.gen_shell_script (s : EnvShellScript) : Str :=
  ((s.envs.mergeSort envLe).map fun p => envLineFor p.1 p.2).flatten
    ++ ((s.paths.mergeSort pathLe).map fun p => pathBlockFor p.1 p.2).flatten

/-- Specification-side reading of the document: the position of the last
assignment line for a key, following the wording "the position of that key's
last `Assignment` line". -/
def lastEnvIdx : List EnvFileLine → Str → Option Nat
  | [], _ => none
  | line :: rest, k =>
    match lastEnvIdx rest k with
    | some j => some (j + 1)
    | none =>
      match line with
      | .Env s => if s.key = k then some 0 else none
      | .Other _ => none

/-- Specification-side reading of the document: the value of the last
assignment line for a key ("the value of the last occurrence in file
order"). -/
def lastEnvValue (lines : List EnvFileLine) (k : Str) : Option Str :=
  lines.reverse.findSome? fun line =>
    match line with
    | .Env s => if s.key = k then some s.value else none
    | .Other _ => none

/-- Agreement of index and document: every indexed position holds an
assignment line whose key matches, and no later line assigns that key. -/
def indexAgrees (e : EnvFile) : Prop :=
  ∀ k i, e.envs k = some i →
    ∃ s, e.env_file_lines[i]? = some (.Env s) ∧ s.key = k ∧
      ∀ j s2, i < j → e.env_file_lines[j]? = some (.Env s2) → s2.key ≠ k

/-- Iterated `PathVariable::put_path` over a list of directories. -/
def putPaths (pv : PathVariable) (ds : List Str) : PathVariable :=
  ds.foldl PathVariable.put_path pv

/-- The membership set of a `PathVariable` holds exactly the original and
added segments. -/
def setConsistent (pv : PathVariable) : Prop :=
  ∀ y, (y ∈ pv.parsed_paths ∨ y ∈ pv.added_paths) ↔ y ∈ pv.path_set

/-- One recorded call against the shell-script accumulator. -/
inductive ScriptOp where
  | env (k v : Str)
  | path (p : Str) (prepends : Bool)

/-- One call against the accumulator. -/
def scriptStep (s : EnvShellScript) : ScriptOp → EnvShellScript
  | .env k v => s.put_env k v
  | .path p f => s.put_path p f

/-- Replay a sequence of `put_env` / `put_path` calls on a fresh
`EnvShellScript`. -/
def applyOps (ops : List ScriptOp) : EnvShellScript :=
  ops.foldl scriptStep EnvShellScript.new

/-- Specification-side: the value of the last `put_env` for a key in a call
sequence. -/
def lastEnvOp : List ScriptOp → Str → Option Str
  | [], _ => none
  | op :: rest, k =>
    match lastEnvOp rest k with
    | some v => some v
    | none =>
      match op with
      | .env k2 v => if k2 = k then some v else none
      | .path _ _ => none

/-- Specification-side: the flag of the last `put_path` for a directory in a
call sequence. -/
def lastPathOp : List ScriptOp → Str → Option Bool
  | [], _ => none
  | op :: rest, p =>
    match lastPathOp rest p with
    | some f => some f
    | none =>
      match op with
      | .path p2 f => if p2 = p then some f else none
      | .env _ _ => none

theorem splitOnColon_ne_nil (l : Str) : splitOnColon l ≠ [] := by
  cases l with
  | nil => simp [splitOnColon]
  | cons c rest =>
    simp only [splitOnColon]
    split
    · simp
    · split <;> simp

theorem joinColon_cons (s : Str) (t : List Str) (h : t ≠ []) :
    joinColon (s :: t) = s ++ ':' :: joinColon t := by
  cases t with
  | nil => exact absurd rfl h
  | cons a t => rfl

theorem joinColon_splitOnColon (l : Str) : joinColon (splitOnColon l) = l := by
  induction l with
  | nil => rfl
  | cons c rest ih =>
    simp only [splitOnColon]
    by_cases hc : c = ':'
    · rw [if_pos hc, joinColon_cons _ _ (splitOnColon_ne_nil rest), ih, hc]
      rfl
    · rw [if_neg hc]
      cases h : splitOnColon rest with
      | nil => exact absurd h (splitOnColon_ne_nil rest)
      | cons s ss =>
        rw [h] at ih
        cases ss with
        | nil =>
          simpa [joinColon] using congrArg (c :: ·) ih
        | cons x xs =>
          have : joinColon ((c :: s) :: x :: xs) = c :: joinColon (s :: x :: xs) := rfl
          rw [this, ih]

theorem stripLastSeg_snoc (ps : List Str) (p : Str) :
    stripLastSeg (ps ++ [p]) = ps ++ [p.dropLast] := by
  induction ps with
  | nil => rfl
  | cons x ps ih =>
    cases ps with
    | nil => rfl
    | cons y ps2 =>
      simp only [List.cons_append] at ih ⊢
      exact (congrArg (x :: ·) ih)

theorem joinColon_snoc_append (ps : List Str) (u w : Str) :
    joinColon (ps ++ [u ++ w]) = joinColon (ps ++ [u]) ++ w := by
  induction ps with
  | nil => rfl
  | cons x ps ih =>
    rw [List.cons_append, List.cons_append,
      joinColon_cons _ _ (by simp), joinColon_cons _ _ (by simp), ih]
    simp

theorem joinColon_cons_head (c : Char) (s : Str) (rest : List Str) :
    joinColon ((c :: s) :: rest) = c :: joinColon (s :: rest) := by
  cases rest <;> rfl

theorem findQuote_eq_some {ps : List Str} {q : Char} (h : findQuote ps = some q) :
    qCond ps q = true := by
  unfold findQuote at h
  by_cases h1 : qCond ps '"' = true
  · rw [if_pos h1] at h
    cases h
    exact h1
  · rw [if_neg h1] at h
    by_cases h2 : qCond ps squote = true
    · rw [if_pos h2] at h
      cases h
      exact h2
    · rw [if_neg h2] at h
      cases h

theorem qCond_spec {ps : List Str} {q : Char} (h : qCond ps q = true) :
    ∃ f lst, ps.head? = some f ∧ ps.getLast? = some lst ∧
      f.head? = some q ∧ ¬ f.getLast? = some q ∧
      lst.getLast? = some q ∧ ¬ lst.head? = some q := by
  unfold qCond at h
  cases hf : ps.head? with
  | none => rw [hf] at h; simp at h
  | some f =>
    cases hl : ps.getLast? with
    | none => rw [hf, hl] at h; simp at h
    | some lst =>
      rw [hf, hl] at h
      simp only [Bool.and_eq_true, decide_eq_true_eq, Bool.not_eq_true',
        decide_eq_false_iff_not] at h
      exact ⟨f, lst, rfl, rfl, by simp [h.1.1], by simp [h.1.2], by simp [h.2.1], by simp [h.2.2]⟩

theorem parse_surrounding_quote (val : Str) :
    (PathVariable.parse val).surrounding_quote = findQuote (splitOnColon val) := rfl

theorem parse_added_paths (val : Str) : (PathVariable.parse val).added_paths = [] := rfl

theorem parse_parsed_paths_none (val : Str) (h : findQuote (splitOnColon val) = none) :
    (PathVariable.parse val).parsed_paths = splitOnColon val := by
  simp only [PathVariable.parse, h]

theorem parse_parsed_paths_some (val : Str) (q : Char)
    (h : findQuote (splitOnColon val) = some q) :
    (PathVariable.parse val).parsed_paths = stripFirstLast (splitOnColon val) := by
  simp only [PathVariable.parse, h]

theorem parse_path_set (val : Str) :
    (PathVariable.parse val).path_set = (PathVariable.parse val).parsed_paths := rfl

theorem serialize_quote_some {pv : PathVariable} {q : Char}
    (h : pv.surrounding_quote = some q) :
    pv.serialize =
      q :: (joinColon ((pv.added_paths.map pv.quote_path_if_necessary).reverse
          ++ pv.parsed_paths) ++ [q]) := by
  simp only [PathVariable.serialize, h]

theorem serialize_quote_none {pv : PathVariable}
    (h : pv.surrounding_quote = none) :
    pv.serialize =
      joinColon ((pv.added_paths.map pv.quote_path_if_necessary).reverse
        ++ pv.parsed_paths) := by
  simp only [PathVariable.serialize, h]

theorem getLast?_cons_concat (f b : Str) (mid : List Str) :
    (f :: (mid ++ [b])).getLast? = some b := by
  rw [show f :: (mid ++ [b]) = (f :: mid) ++ [b] by simp, List.getLast?_concat]

/-- C10: parsing a value into a `PathVariable` and serializing immediately,
with no directories added, returns exactly the original string. -/
theorem pathVariable_parse_serialize_id (val : Str) :
    (PathVariable.parse val).serialize = val := by
  cases hq : findQuote (splitOnColon val) with
  | none =>
    rw [serialize_quote_none ((parse_surrounding_quote val).trans hq),
      parse_added_paths, parse_parsed_paths_none val hq]
    simpa using joinColon_splitOnColon val
  | some q =>
    rw [serialize_quote_some ((parse_surrounding_quote val).trans hq),
      parse_added_paths, parse_parsed_paths_some val q hq]
    simp only [List.map_nil, List.reverse_nil, List.nil_append]
    obtain ⟨f, lst, hf, hl, hfh, hfl, hll, hlh⟩ := qCond_spec (findQuote_eq_some hq)
    cases hps : splitOnColon val with
    | nil => exact absurd hps (splitOnColon_ne_nil val)
    | cons f0 rest =>
      rw [hps] at hf hl
      have hf0 : f = f0 := by simpa using hf.symm
      subst hf0
      rcases List.eq_nil_or_concat rest with hnil | ⟨mid, lst0, hrest⟩
      · subst hnil
        have hfl2 : f = lst := by
          simp only [List.getLast?_singleton, Option.some.injEq] at hl
          exact hl
        rw [← hfl2] at hll
        exact absurd hll hfl
      · rw [List.concat_eq_append] at hrest
        subst hrest
        have hlst : lst = lst0 := by
          rw [getLast?_cons_concat] at hl
          exact (Option.some.inj hl).symm
        subst hlst
        obtain ⟨a, t, hft⟩ : ∃ a t, f = a :: t := by
          cases f with
          | nil => simp at hfh
          | cons a t => exact ⟨a, t, rfl⟩
        have haq : a = q := by rw [hft] at hfh; simpa using hfh
        rw [haq] at hft
        obtain ⟨u, hu⟩ : ∃ u, lst = u ++ [q] := by
          rcases List.eq_nil_or_concat lst with h0 | ⟨u, b, hub⟩
          · subst h0; simp at hll
          · rw [List.concat_eq_append] at hub
            rw [hub, List.getLast?_concat] at hll
            cases hll
            exact ⟨u, hub⟩
        have hstrip : stripFirstLast (f :: (mid ++ [lst])) = (t :: mid) ++ [u] := by
          rw [hft, hu]
          show stripLastSeg ((t :: mid) ++ [u ++ [q]]) = (t :: mid) ++ [u]
          rw [stripLastSeg_snoc, List.dropLast_concat]
        have hval : val = joinColon (f :: (mid ++ [lst])) := by
          rw [← hps, joinColon_splitOnColon]
        rw [hstrip, hval, hft, hu, joinColon_cons_head,
          show t :: (mid ++ [u ++ [q]]) = (t :: mid) ++ [u ++ [q]] by simp,
          joinColon_snoc_append]

theorem qCond_intro {ps : List Str} {q : Char} {f lst : Str}
    (hf : ps.head? = some f) (hl : ps.getLast? = some lst)
    (h1 : f.head? = some q) (h2 : ¬ f.getLast? = some q)
    (h3 : lst.getLast? = some q) (h4 : ¬ lst.head? = some q) :
    qCond ps q = true := by
  unfold qCond
  rw [hf, hl]
  simp [h1, h2, h3, h4]

theorem qCond_singleton (s : Str) (c : Char) : qCond [s] c = false := by
  by_cases h1 : s.head? = some c <;> by_cases h2 : s.getLast? = some c <;>
    simp [qCond, h1, h2]

theorem findQuote_candidates {ps : List Str} {q : Char} (h : findQuote ps = some q) :
    q = '"' ∨ q = squote := by
  unfold findQuote at h
  by_cases h1 : qCond ps '"' = true
  · rw [if_pos h1] at h; exact Or.inl (Option.some.inj h).symm
  · rw [if_neg h1] at h
    by_cases h2 : qCond ps squote = true
    · rw [if_pos h2] at h; exact Or.inr (Option.some.inj h).symm
    · rw [if_neg h2] at h; cases h

/-- C4: a quote character is deemed surrounding exactly when the first
colon-separated segment starts with it and does not end with it, and the
last segment ends with it and does not start with it; when detected, the
quote is stripped from the first and last segment; a single-segment value is
never treated as surrounded. -/
theorem pathVariable_quote_detection (val : Str) (q : Char) :
    ((PathVariable.parse val).surrounding_quote = some q ↔
      ((q = '"' ∨ q = squote) ∧
        ∃ f lst, (splitOnColon val).head? = some f ∧ (splitOnColon val).getLast? = some lst ∧
          f.head? = some q ∧ ¬ f.getLast? = some q ∧
          lst.getLast? = some q ∧ ¬ lst.head? = some q))
    ∧ ((PathVariable.parse val).surrounding_quote = some q →
        (PathVariable.parse val).parsed_paths = stripFirstLast (splitOnColon val))
    ∧ (∀ s, splitOnColon val = [s] → (PathVariable.parse val).surrounding_quote = none) := by
  refine ⟨⟨fun h => ?_, fun h => ?_⟩, fun h => ?_, fun s hs => ?_⟩
  · rw [parse_surrounding_quote] at h
    obtain ⟨f, lst, hf, hl, h1, h2, h3, h4⟩ := qCond_spec (findQuote_eq_some h)
    exact ⟨findQuote_candidates h, f, lst, hf, hl, h1, h2, h3, h4⟩
  · obtain ⟨hq, f, lst, hf, hl, h1, h2, h3, h4⟩ := h
    have hcond : qCond (splitOnColon val) q = true := qCond_intro hf hl h1 h2 h3 h4
    rw [parse_surrounding_quote]
    unfold findQuote
    rcases hq with rfl | rfl
    · rw [if_pos hcond]
    · have hne : ¬ qCond (splitOnColon val) '"' = true := by
        intro hdq
        obtain ⟨f2, lst2, hf2, hl2, h12, _, _, _⟩ := qCond_spec hdq
        rw [hf] at hf2
        cases hf2
        rw [h1] at h12
        have : squote = '"' := Option.some.inj h12
        exact absurd this (by decide)
      rw [if_neg hne, if_pos hcond]
  · rw [parse_surrounding_quote] at h
    exact parse_parsed_paths_some val q h
  · rw [parse_surrounding_quote, hs]
    unfold findQuote
    rw [qCond_singleton, qCond_singleton]
    simp

/-- C4 witness: the value `"/a:/b"` is detected as double-quote surrounded
and stripped, while the single-segment value `"/bin"` is not surrounded. -/
theorem pathVariable_quote_detection_witness :
    (PathVariable.parse ("\"/a:/b\"".toList)).surrounding_quote = some '"'
    ∧ (PathVariable.parse ("\"/a:/b\"".toList)).parsed_paths
        = stripFirstLast (splitOnColon ("\"/a:/b\"".toList))
    ∧ (PathVariable.parse ("\"/bin\"".toList)).surrounding_quote = none := by
  have h1 := (pathVariable_quote_detection ("\"/a:/b\"".toList) '"').1.2
    ⟨Or.inl rfl, "\"/a".toList, "/b\"".toList, by decide, by decide, by decide, by decide,
      by decide, by decide⟩
  have h2 := (pathVariable_quote_detection ("\"/a:/b\"".toList) '"').2.1 h1
  have h3 := (pathVariable_quote_detection ("\"/bin\"".toList) '"').2.2
    ("\"/bin\"".toList) (by decide)
  exact ⟨h1, h2, h3⟩

theorem setConsistent_parse (val : Str) : setConsistent (PathVariable.parse val) := by
  intro y
  rw [parse_path_set, parse_added_paths]
  simp

theorem setConsistent_put {pv : PathVariable} (h : setConsistent pv) (d : Str) :
    setConsistent (pv.put_path d) := by
  unfold PathVariable.put_path
  by_cases hd : d ∈ pv.path_set
  · rw [if_pos hd]; exact h
  · rw [if_neg hd]
    intro y
    simp only [List.mem_append, List.mem_singleton]
    constructor
    · rintro (hy | hy | rfl)
      · exact Or.inl ((h y).mp (Or.inl hy))
      · exact Or.inl ((h y).mp (Or.inr hy))
      · exact Or.inr rfl
    · rintro (hy | rfl)
      · rcases (h y).mpr hy with h2 | h2
        · exact Or.inl h2
        · exact Or.inr (Or.inl h2)
      · exact Or.inr (Or.inr rfl)

theorem setConsistent_putPaths {pv : PathVariable} (h : setConsistent pv) (ds : List Str) :
    setConsistent (putPaths pv ds) := by
  induction ds generalizing pv with
  | nil => exact h
  | cons d ds ih => exact ih (setConsistent_put h d)

/-- C6: adding a directory already present among the original or
previously-added segments leaves the serialization unchanged. -/
theorem pathVariable_put_path_dedup (val : Str) (ds : List Str) (d : Str) :
    (d ∈ (putPaths (PathVariable.parse val) ds).parsed_paths
      ∨ d ∈ (putPaths (PathVariable.parse val) ds).added_paths) →
    ((putPaths (PathVariable.parse val) ds).put_path d).serialize
      = (putPaths (PathVariable.parse val) ds).serialize := by
  intro h
  have hmem : d ∈ (putPaths (PathVariable.parse val) ds).path_set :=
    (setConsistent_putPaths (setConsistent_parse val) ds d).mp h
  unfold PathVariable.put_path
  rw [if_pos hmem]

/-- C6 witness: re-adding `/a`, an original segment of `/a:/b`, leaves the
serialization unchanged. -/
theorem pathVariable_put_path_dedup_witness :
    ((putPaths (PathVariable.parse ("/a:/b".toList)) []).put_path ("/a".toList)).serialize
      = (putPaths (PathVariable.parse ("/a:/b".toList)) []).serialize :=
  pathVariable_put_path_dedup ("/a:/b".toList) [] ("/a".toList) (Or.inl (by decide))

theorem putPaths_fresh (pv : PathVariable) (ds : List Str) (hnd : ds.Nodup)
    (hf : ∀ d ∈ ds, d ∉ pv.path_set) :
    (putPaths pv ds).added_paths = pv.added_paths ++ ds ∧
    (putPaths pv ds).parsed_paths = pv.parsed_paths ∧
    (putPaths pv ds).surrounding_quote = pv.surrounding_quote ∧
    (putPaths pv ds).path_set = pv.path_set ++ ds := by
  induction ds generalizing pv with
  | nil => simp [putPaths]
  | cons d ds ih =>
    have hd : d ∉ pv.path_set := hf d (by simp)
    have step : pv.put_path d =
        { pv with added_paths := pv.added_paths ++ [d], path_set := pv.path_set ++ [d] } := by
      unfold PathVariable.put_path
      rw [if_neg hd]
    have hnd2 : ds.Nodup := (List.nodup_cons.mp hnd).2
    have hdd : d ∉ ds := (List.nodup_cons.mp hnd).1
    have hf2 : ∀ x ∈ ds, x ∉ (pv.put_path d).path_set := by
      intro x hx
      rw [step]
      simp only [List.mem_append, List.mem_singleton]
      rintro (hx2 | rfl)
      · exact hf x (by simp [hx]) hx2
      · exact hdd hx
    have hmain := ih (pv.put_path d) hnd2 hf2
    have hput : putPaths pv (d :: ds) = putPaths (pv.put_path d) ds := rfl
    rw [hput, hmain.1, hmain.2.1, hmain.2.2.1, hmain.2.2.2, step]
    refine ⟨by simp, rfl, rfl, by simp⟩

/-- C5: after adding a sequence of distinct fresh directories, the
serialization lists them most-recently-added first (each single-quoted when
no surrounding quote was detected, unquoted otherwise), then the original
segments, colon-joined, wrapped in the detected quote when there is one. -/
theorem pathVariable_serialize_order (val : Str) (ds : List Str)
    (hnd : ds.Nodup)
    (hf : ∀ d ∈ ds, d ∉ (PathVariable.parse val).path_set) :
    (putPaths (PathVariable.parse val) ds).serialize =
      (match (PathVariable.parse val).surrounding_quote with
       | some q =>
         q :: (joinColon (ds.reverse ++ (PathVariable.parse val).parsed_paths) ++ [q])
       | none =>
         joinColon ((ds.map single_quote_str_for_shell).reverse
           ++ (PathVariable.parse val).parsed_paths)) := by
  obtain ⟨ha, hp, hqq, _⟩ := putPaths_fresh (PathVariable.parse val) ds hnd hf
  rw [parse_added_paths, List.nil_append] at ha
  cases hq : (PathVariable.parse val).surrounding_quote with
  | some q =>
    rw [serialize_quote_some (hqq.trans hq), ha, hp]
    have hid : ds.map (putPaths (PathVariable.parse val) ds).quote_path_if_necessary = ds := by
      have : ∀ x ∈ ds,
          (putPaths (PathVariable.parse val) ds).quote_path_if_necessary x = x := by
        intro x _
        unfold PathVariable.quote_path_if_necessary
        rw [hqq.trans hq]
      rw [List.map_congr_left this]
      simp
    rw [hid]
  | none =>
    rw [serialize_quote_none (hqq.trans hq), ha, hp]
    have hsq : ds.map (putPaths (PathVariable.parse val) ds).quote_path_if_necessary
        = ds.map single_quote_str_for_shell := by
      apply List.map_congr_left
      intro x _
      unfold PathVariable.quote_path_if_necessary
      rw [hqq.trans hq]
    rw [hsq]

/-- C5 witness: on `/usr/bin:/bin` with fresh additions `/a` then `/b`, the
output lists `/b`, then `/a` (individually single-quoted), then the original
segments. -/
theorem pathVariable_serialize_order_witness :
    (putPaths (PathVariable.parse ("/usr/bin:/bin".toList))
        ["/a".toList, "/b".toList]).serialize =
      (match (PathVariable.parse ("/usr/bin:/bin".toList)).surrounding_quote with
       | some q =>
         q :: (joinColon (["/a".toList, "/b".toList].reverse
           ++ (PathVariable.parse ("/usr/bin:/bin".toList)).parsed_paths) ++ [q])
       | none =>
         joinColon ((["/a".toList, "/b".toList].map single_quote_str_for_shell).reverse
           ++ (PathVariable.parse ("/usr/bin:/bin".toList)).parsed_paths)) :=
  pathVariable_serialize_order ("/usr/bin:/bin".toList) ["/a".toList, "/b".toList]
    (by decide) (by decide)

theorem buildIndexAux_eq (lines : List EnvFileLine) (m : EnvMap) (i : Nat) (k : Str) :
    buildIndexAux m i lines k =
      match lastEnvIdx lines k with
      | some j => some (i + j)
      | none => m k := by
  induction lines generalizing m i with
  | nil => rfl
  | cons line rest ih =>
    cases line with
    | Env s =>
      have hstep : buildIndexAux m i (.Env s :: rest)
          = buildIndexAux (m.insert s.key i) (i + 1) rest := rfl
      rw [hstep, ih]
      cases h : lastEnvIdx rest k with
      | some j =>
        simp only [lastEnvIdx, h]
        rw [show i + 1 + j = i + (j + 1) by omega]
      | none =>
        simp only [lastEnvIdx, h]
        unfold EnvMap.insert
        by_cases hk : s.key = k
        · subst hk
          simp
        · rw [if_neg (fun hh => hk hh.symm), if_neg hk]
    | Other t =>
      have hstep : buildIndexAux m i (.Other t :: rest) = buildIndexAux m (i + 1) rest := rfl
      rw [hstep, ih]
      cases h : lastEnvIdx rest k with
      | some j =>
        simp only [lastEnvIdx, h]
        rw [show i + 1 + j = i + (j + 1) by omega]
      | none => simp only [lastEnvIdx, h]

theorem lastEnvIdx_none_spec {lines : List EnvFileLine} {k : Str}
    (h : lastEnvIdx lines k = none) :
    ∀ (j : Nat) (s : EnvStatement), lines[j]? = some (EnvFileLine.Env s) → s.key ≠ k := by
  induction lines with
  | nil => intro j s hj; simp at hj
  | cons line rest ih =>
    intro j s hj
    have hrest : lastEnvIdx rest k = none := by
      cases hr : lastEnvIdx rest k with
      | none => rfl
      | some j0 =>
        simp only [lastEnvIdx, hr] at h
        exact Option.noConfusion h
    cases j with
    | zero =>
      simp only [List.getElem?_cons_zero, Option.some.injEq] at hj
      subst hj
      simp only [lastEnvIdx, hrest] at h
      replace h : (if s.key = k then some 0 else none) = (none : Option Nat) := h
      intro hk
      rw [if_pos hk] at h
      exact Option.noConfusion h
    | succ j2 =>
      rw [List.getElem?_cons_succ] at hj
      exact ih hrest j2 s hj

theorem lastEnvValue_cons (line : EnvFileLine) (rest : List EnvFileLine) (k : Str) :
    lastEnvValue (line :: rest) k =
      (lastEnvValue rest k).or
        (match line with
         | .Env s => if s.key = k then some s.value else none
         | .Other _ => none) := by
  unfold lastEnvValue
  rw [List.reverse_cons, List.findSome?_append]
  congr 1
  cases line with
  | Env s => by_cases h : s.key = k <;> simp [List.findSome?_cons, h]
  | Other t => simp [List.findSome?_cons]

theorem lastEnvValue_none_spec {lines : List EnvFileLine} {k : Str}
    (h : lastEnvIdx lines k = none) : lastEnvValue lines k = none := by
  induction lines with
  | nil => rfl
  | cons line rest ih =>
    have hrest : lastEnvIdx rest k = none := by
      cases hr : lastEnvIdx rest k with
      | none => rfl
      | some j0 =>
        simp only [lastEnvIdx, hr] at h
        exact Option.noConfusion h
    rw [lastEnvValue_cons, ih hrest]
    cases line with
    | Env s =>
      simp only [lastEnvIdx, hrest] at h
      replace h : (if s.key = k then some 0 else none) = (none : Option Nat) := h
      by_cases hk : s.key = k
      · rw [if_pos hk] at h
        exact Option.noConfusion h
      · simp [hk]
    | Other t => simp

theorem lastEnvIdx_spec {lines : List EnvFileLine} {k : Str} {j : Nat}
    (h : lastEnvIdx lines k = some j) :
    ∃ s : EnvStatement, lines[j]? = some (EnvFileLine.Env s) ∧ s.key = k ∧
      (∀ (j2 : Nat) (s2 : EnvStatement), j < j2 →
        lines[j2]? = some (EnvFileLine.Env s2) → s2.key ≠ k) ∧
      lastEnvValue lines k = some s.value := by
  induction lines generalizing j with
  | nil => cases h
  | cons line rest ih =>
    cases hr : lastEnvIdx rest k with
    | some j0 =>
      simp only [lastEnvIdx, hr] at h
      cases h
      obtain ⟨s, hs, hks, hlater, hval⟩ := ih hr
      refine ⟨s, by simpa using hs, hks, ?_, ?_⟩
      · intro j2 s2 hj2 hj2e
        cases j2 with
        | zero => omega
        | succ j3 =>
          rw [List.getElem?_cons_succ] at hj2e
          exact hlater j3 s2 (by omega) hj2e
      · rw [lastEnvValue_cons, hval]
        rfl
    | none =>
      simp only [lastEnvIdx, hr] at h
      cases line with
      | Env s =>
        replace h : (if s.key = k then some 0 else none) = some j := h
        by_cases hk : s.key = k
        · rw [if_pos hk] at h
          cases h
          refine ⟨s, by simp, hk, ?_, ?_⟩
          · intro j2 s2 hj2 hj2e
            cases j2 with
            | zero => omega
            | succ j3 =>
              rw [List.getElem?_cons_succ] at hj2e
              exact lastEnvIdx_none_spec hr j3 s2 hj2e
          · rw [lastEnvValue_cons, lastEnvValue_none_spec hr]
            simp [hk]
        · rw [if_neg hk] at h
          exact Option.noConfusion h
      | Other t =>
        replace h : (none : Option Nat) = some j := h
        exact Option.noConfusion h

/-- C3: after opening a file, `get_env` returns the value of the last
assignment line for the key in file order, and `none` for a key with no
assignment line. -/
theorem open_get_env_last_wins (content key : Str) :
    (EnvFile.openContent content).get_env key = lastEnvValue (parseLines content) key := by
  have henvs : (EnvFile.openContent content).envs key
      = buildIndexAux (fun _ => none) 0 (parseLines content) key := rfl
  have hlines : (EnvFile.openContent content).env_file_lines = parseLines content := rfl
  unfold EnvFile.get_env
  rw [henvs, hlines, buildIndexAux_eq]
  cases h : lastEnvIdx (parseLines content) key with
  | none => rw [lastEnvValue_none_spec h]
  | some j =>
    obtain ⟨s, hs, _, _, hval⟩ := lastEnvIdx_spec h
    simp only [Nat.zero_add]
    rw [hs, hval]

theorem indexAgrees_open (content : Str) : indexAgrees (EnvFile.openContent content) := by
  intro k i hi
  have henvs : (EnvFile.openContent content).envs k
      = buildIndexAux (fun _ => none) 0 (parseLines content) k := rfl
  rw [henvs, buildIndexAux_eq] at hi
  cases h : lastEnvIdx (parseLines content) k with
  | none => rw [h] at hi; cases hi
  | some j =>
    rw [h] at hi
    simp only [Nat.zero_add, Option.some.injEq] at hi
    subst hi
    obtain ⟨s, hs, hks, hlater, _⟩ := lastEnvIdx_spec h
    exact ⟨s, hs, hks, hlater⟩

theorem indexAgrees_put (e : EnvFile) (k v : Str) (h : indexAgrees e) :
    indexAgrees (e.put_env_with_no_sanity_check k v) := by
  unfold EnvFile.put_env_with_no_sanity_check
  cases hk : e.envs k with
  | some i0 =>
    obtain ⟨s0, hs0, hk0, _⟩ := h k i0 hk
    have hi0len : i0 < e.env_file_lines.length :=
      (List.getElem?_eq_some_iff.mp hs0).1
    have hset : setEnvValue e.env_file_lines i0 v
        = e.env_file_lines.set i0 (.Env { s0 with value := v }) := by
      unfold setEnvValue
      rw [hs0]
    intro k2 i hi
    replace hi : e.envs k2 = some i := hi
    obtain ⟨s, hs, hks, hlater⟩ := h k2 i hi
    by_cases hii : i = i0
    · subst hii
      have hs0s : s = s0 := by
        rw [hs0] at hs
        cases hs
        rfl
      subst hs0s
      refine ⟨{ s with value := v }, ?_, hks, ?_⟩
      · show (setEnvValue e.env_file_lines i v)[i]? = _
        rw [hset, List.getElem?_set_self (by simpa using hi0len)]
      · intro j s2 hj hj2
        replace hj2 : (setEnvValue e.env_file_lines i v)[j]? = some (.Env s2) := hj2
        rw [hset, List.getElem?_set_ne (by omega)] at hj2
        exact hlater j s2 hj hj2
    · refine ⟨s, ?_, hks, ?_⟩
      · show (setEnvValue e.env_file_lines i0 v)[i]? = _
        rw [hset, List.getElem?_set_ne (by omega)]
        exact hs
      · intro j s2 hj hj2
        replace hj2 : (setEnvValue e.env_file_lines i0 v)[j]? = some (.Env s2) := hj2
        by_cases hji : j = i0
        · subst hji
          rw [hset, List.getElem?_set_self hi0len] at hj2
          have hs2 : s2 = { s0 with value := v } := by
            cases hj2
            rfl
          have hkne : k2 ≠ k := by
            intro hkk
            subst hkk
            rw [hk] at hi
            cases hi
            exact hii rfl
          rw [hs2]
          show s0.key ≠ k2
          rw [hk0]
          exact fun hh => hkne hh.symm
        · rw [hset, List.getElem?_set_ne (by omega)] at hj2
          exact hlater j s2 hj hj2
  | none =>
    intro k2 i hi
    replace hi : (if k2 = k then some e.env_file_lines.length else e.envs k2) = some i := hi
    by_cases hkk : k2 = k
    · rw [if_pos hkk] at hi
      cases hi
      refine ⟨⟨k, v, [], []⟩, ?_, hkk.symm, ?_⟩
      · show (e.env_file_lines ++ [.Env ⟨k, v, [], []⟩])[e.env_file_lines.length]? = _
        simp
      · intro j s2 hj hj2
        replace hj2 : (e.env_file_lines ++ [.Env ⟨k, v, [], []⟩])[j]? = some (.Env s2) := hj2
        have : (e.env_file_lines ++ [EnvFileLine.Env ⟨k, v, [], []⟩])[j]? = none := by
          rw [List.getElem?_eq_none]
          simp only [List.length_append, List.length_cons, List.length_nil]
          omega
        rw [this] at hj2
        cases hj2
    · rw [if_neg hkk] at hi
      obtain ⟨s, hs, hks, hlater⟩ := h k2 i hi
      have hilen : i < e.env_file_lines.length := (List.getElem?_eq_some_iff.mp hs).1
      refine ⟨s, ?_, hks, ?_⟩
      · show (e.env_file_lines ++ [.Env ⟨k, v, [], []⟩])[i]? = _
        rw [List.getElem?_append, if_pos hilen]
        exact hs
      · intro j s2 hj hj2
        replace hj2 : (e.env_file_lines ++ [.Env ⟨k, v, [], []⟩])[j]? = some (.Env s2) := hj2
        rw [List.getElem?_append] at hj2
        by_cases hjl : j < e.env_file_lines.length
        · rw [if_pos hjl] at hj2
          exact hlater j s2 hj hj2
        · rw [if_neg hjl] at hj2
          rcases Nat.lt_or_ge (j - e.env_file_lines.length) 1 with hj1 | hj1
          · have hj0 : j - e.env_file_lines.length = 0 := by omega
            rw [hj0] at hj2
            simp only [List.getElem?_cons_zero, Option.some.injEq] at hj2
            have hs2k : s2.key = k := by
              cases hj2
              rfl
            rw [hs2k]
            exact fun hh => hkk hh.symm
          · have : ([EnvFileLine.Env ⟨k, v, [], []⟩] : List EnvFileLine)[j - e.env_file_lines.length]? = none := by
              rw [List.getElem?_eq_none]
              simp only [List.length_cons, List.length_nil]
              omega
            rw [this] at hj2
            cases hj2

/-- C9: the variable index and the document agree after `open` and after
every `put_env_with_no_sanity_check`, `put_env`, or `put_path` mutation:
every indexed position holds an assignment line with the indexed key, and no
later line assigns that key. -/
theorem index_document_agreement (content : Str) (e : EnvFile) (k v d : Str) :
    indexAgrees (EnvFile.openContent content)
    ∧ (indexAgrees e → indexAgrees (e.put_env_with_no_sanity_check k v))
    ∧ (∀ e2, e.put_env k v = some e2 → indexAgrees e → indexAgrees e2)
    ∧ (∀ e2, e.put_path d = some e2 → indexAgrees e → indexAgrees e2) := by
  refine ⟨indexAgrees_open content, indexAgrees_put e k v, ?_, ?_⟩
  · intro e2 he2 h
    unfold EnvFile.put_env at he2
    by_cases hc : (v.contains '\n' || v.contains '\\') = true
    · rw [if_pos hc] at he2
      cases he2
    · rw [if_neg hc] at he2
      cases he2
      exact indexAgrees_put e k _ h
  · intro e2 he2 h
    unfold EnvFile.put_path at he2
    by_cases hc : (d.contains '"' || d.contains squote || d.contains '\\' || d.contains '\n') = true
    · rw [if_pos hc] at he2
      cases he2
    · rw [if_neg hc] at he2
      cases he2
      exact indexAgrees_put e _ _ h

/-- C9 witness: agreement holds for a concrete opened document and is
preserved by a concrete update. -/
theorem index_document_agreement_witness :
    indexAgrees (EnvFile.openContent ("A=1\n".toList))
    ∧ indexAgrees ((EnvFile.openContent ("A=1\n".toList)).put_env_with_no_sanity_check
        ("B".toList) ("2".toList)) := by
  have h := index_document_agreement ("A=1\n".toList)
    (EnvFile.openContent ("A=1\n".toList)) ("B".toList) ("2".toList) ("/a".toList)
  exact ⟨h.1, h.2.1 h.1⟩

/-- C2: for a key already indexed, `put_env_with_no_sanity_check` changes
only the value field of the indexed assignment line, leaving its position,
leading and trailing text, every other line, and the index unchanged; for a
key not indexed, it appends exactly one new assignment line with empty
leading and trailing text and records its index. -/
theorem put_env_no_sanity_frame (e : EnvFile) (key value : Str) :
    (∀ i s, e.envs key = some i → e.env_file_lines[i]? = some (.Env s) →
      ((e.put_env_with_no_sanity_check key value).env_file_lines.length
          = e.env_file_lines.length
        ∧ (e.put_env_with_no_sanity_check key value).env_file_lines[i]?
          = some (.Env ⟨s.key, value, s.leading_characters, s.following_characters⟩)
        ∧ (∀ j, j ≠ i → (e.put_env_with_no_sanity_check key value).env_file_lines[j]?
          = e.env_file_lines[j]?)
        ∧ (e.put_env_with_no_sanity_check key value).envs = e.envs))
    ∧ (e.envs key = none →
      (e.put_env_with_no_sanity_check key value).env_file_lines
        = e.env_file_lines ++ [.Env ⟨key, value, [], []⟩]
      ∧ (e.put_env_with_no_sanity_check key value).envs
        = e.envs.insert key e.env_file_lines.length) := by
  constructor
  · intro i s hi hline
    have hilen : i < e.env_file_lines.length := (List.getElem?_eq_some_iff.mp hline).1
    have hput : e.put_env_with_no_sanity_check key value
        = { e with env_file_lines := setEnvValue e.env_file_lines i value } := by
      unfold EnvFile.put_env_with_no_sanity_check
      rw [hi]
    have hset : setEnvValue e.env_file_lines i value
        = e.env_file_lines.set i (.Env { s with value := value }) := by
      unfold setEnvValue
      rw [hline]
    refine ⟨?_, ?_, ?_, ?_⟩
    · rw [hput]
      show (setEnvValue e.env_file_lines i value).length = _
      rw [hset, List.length_set]
    · rw [hput]
      show (setEnvValue e.env_file_lines i value)[i]? = _
      rw [hset, List.getElem?_set_self hilen]
    · intro j hj
      rw [hput]
      show (setEnvValue e.env_file_lines i value)[j]? = _
      rw [hset, List.getElem?_set_ne (by omega)]
    · rw [hput]
  · intro hnone
    have hput : e.put_env_with_no_sanity_check key value
        = { envs := e.envs.insert key e.env_file_lines.length,
            env_file_lines := e.env_file_lines ++ [.Env ⟨key, value, [], []⟩] } := by
      unfold EnvFile.put_env_with_no_sanity_check
      rw [hnone]
    rw [hput]
    exact ⟨rfl, rfl⟩

/-- C2 witness: updating `A` in the document `A=1` rewrites only that line
in place, and putting the fresh key `B` appends one line with empty leading
and trailing text. -/
theorem put_env_no_sanity_frame_witness :
    ((EnvFile.openContent ("A=1\n".toList)).put_env_with_no_sanity_check
        ("A".toList) ("2".toList)).env_file_lines[0]?
      = some (.Env ⟨"A".toList, "2".toList, [], []⟩)
    ∧ ((EnvFile.openContent ("A=1\n".toList)).put_env_with_no_sanity_check
        ("B".toList) ("3".toList)).env_file_lines
      = (EnvFile.openContent ("A=1\n".toList)).env_file_lines
        ++ [.Env ⟨"B".toList, "3".toList, [], []⟩] := by
  have h1 := (put_env_no_sanity_frame (EnvFile.openContent ("A=1\n".toList))
    ("A".toList) ("2".toList)).1 0 ⟨"A".toList, "1".toList, [], []⟩ (by decide) (by decide)
  have h2 := (put_env_no_sanity_frame (EnvFile.openContent ("A=1\n".toList))
    ("B".toList) ("3".toList)).2 (by decide)
  exact ⟨h1.2.1, h2.1⟩

/-- C7: the safe `put_env` rejects a value holding a newline or backslash,
and `put_path` rejects a directory holding a quote, backslash, or newline;
the fault (the source's `assert!` panic, modelled as `none`) fires before
any mutation, so no updated document is produced. -/
theorem put_rejects_invalid (e : EnvFile) (key value path_val : Str) :
    ((value.contains '\n' = true ∨ value.contains '\\' = true) →
      e.put_env key value = none)
    ∧ ((path_val.contains '"' = true ∨ path_val.contains squote = true
        ∨ path_val.contains '\\' = true ∨ path_val.contains '\n' = true) →
      e.put_path path_val = none) := by
  constructor
  · intro h
    unfold EnvFile.put_env
    rw [if_pos (by rcases h with h | h <;> simp at h <;> simp [h])]
  · intro h
    unfold EnvFile.put_path
    rw [if_pos (by rcases h with h | h | h | h <;> simp at h <;> simp [h])]

/-- C7 witness: a value with an embedded newline and a directory with an
embedded quote are both rejected on the empty document. -/
theorem put_rejects_invalid_witness :
    (EnvFile.openContent []).put_env ("A".toList) ("a\nb".toList) = none
    ∧ (EnvFile.openContent []).put_path ("/a\"b".toList) = none := by
  have h := put_rejects_invalid (EnvFile.openContent []) ("A".toList)
    ("a\nb".toList) ("/a\"b".toList)
  exact ⟨h.1 (Or.inl (by decide)), h.2 (Or.inl (by decide))⟩

theorem lexLe_refl (a : Str) : lexLe a a = true := by
  induction a with
  | nil => rfl
  | cons c as ih => simp [lexLe, ih]

theorem lexLe_total (a b : Str) : lexLe a b = true ∨ lexLe b a = true := by
  induction a generalizing b with
  | nil => exact Or.inl rfl
  | cons c as ih =>
    cases b with
    | nil => exact Or.inr rfl
    | cons d bs =>
      by_cases hcd : c = d
      · subst hcd
        rcases ih bs with h | h
        · exact Or.inl (by simp [lexLe, h])
        · exact Or.inr (by simp [lexLe, h])
      · have hdc : ¬ d = c := fun hh => hcd hh.symm
        rcases lt_trichotomy c d with h | h | h
        · exact Or.inl (by simp [lexLe, hcd, h])
        · exact absurd h hcd
        · exact Or.inr (by simp [lexLe, hdc, h])

theorem lexLe_trans (a b c : Str) (h1 : lexLe a b = true) (h2 : lexLe b c = true) :
    lexLe a c = true := by
  induction a generalizing b c with
  | nil => rfl
  | cons x as ih =>
    cases b with
    | nil => simp [lexLe] at h1
    | cons y bs =>
      cases c with
      | nil => simp [lexLe] at h2
      | cons z cs =>
        by_cases hxy : x = y
        · subst hxy
          rw [lexLe, if_pos rfl] at h1
          by_cases hxz : x = z
          · subst hxz
            rw [lexLe, if_pos rfl] at h2 ⊢
            exact ih bs cs h1 h2
          · rw [lexLe, if_neg hxz] at h2 ⊢
            exact h2
        · rw [lexLe, if_neg hxy] at h1
          replace h1 : x < y := of_decide_eq_true h1
          by_cases hyz : y = z
          · subst hyz
            rw [lexLe, if_neg hxy]
            exact decide_eq_true h1
          · rw [lexLe, if_neg hyz] at h2
            replace h2 : y < z := of_decide_eq_true h2
            have hxz : x < z := lt_trans h1 h2
            have hne : ¬ x = z := fun hh => absurd hxz (by rw [hh]; exact lt_irrefl z)
            rw [lexLe, if_neg hne]
            exact decide_eq_true hxz

theorem lexLe_antisymm (a b : Str) (h1 : lexLe a b = true) (h2 : lexLe b a = true) :
    a = b := by
  induction a generalizing b with
  | nil =>
    cases b with
    | nil => rfl
    | cons d bs => simp [lexLe] at h2
  | cons c as ih =>
    cases b with
    | nil => simp [lexLe] at h1
    | cons d bs =>
      by_cases hcd : c = d
      · subst hcd
        rw [lexLe, if_pos rfl] at h1 h2
        rw [ih bs h1 h2]
      · rw [lexLe, if_neg hcd] at h1
        rw [lexLe, if_neg (fun hh => hcd hh.symm)] at h2
        have hlt1 : c < d := of_decide_eq_true h1
        have hlt2 : d < c := of_decide_eq_true h2
        exact absurd (lt_trans hlt1 hlt2) (lt_irrefl c)

theorem envLe_trans (a b c : Str × Str) (h1 : envLe a b) (h2 : envLe b c) : envLe a c :=
  lexLe_trans a.1 b.1 c.1 h1 h2

theorem envLe_total (a b : Str × Str) : envLe a b || envLe b a := by
  unfold envLe
  rcases lexLe_total a.1 b.1 with h | h <;> simp [h]

theorem pathLe_trans (a b c : Str × Bool) (h1 : pathLe a b) (h2 : pathLe b c) :
    pathLe a c := by
  unfold pathLe at h1 h2 ⊢
  by_cases hab : a.1 = b.1 <;> by_cases hbc : b.1 = c.1
  · rw [if_pos hab] at h1
    rw [if_pos hbc] at h2
    rw [if_pos (hab.trans hbc)]
    cases ha2 : a.2 <;> cases hb2 : b.2 <;> cases hc2 : c.2 <;>
      simp_all
  · rw [if_neg hbc] at h2
    rw [if_neg (fun hh : a.1 = c.1 => hbc (hab.symm.trans hh)), hab]
    exact h2
  · rw [if_neg hab] at h1
    rw [if_neg (fun hh : a.1 = c.1 => hab (hh.trans hbc.symm)), ← hbc]
    exact h1
  · rw [if_neg hab] at h1
    rw [if_neg hbc] at h2
    by_cases hac : a.1 = c.1
    · exfalso
      rw [← hac] at h2
      exact hab (lexLe_antisymm a.1 b.1 h1 h2)
    · rw [if_neg hac]
      exact lexLe_trans a.1 b.1 c.1 h1 h2

theorem pathLe_total (a b : Str × Bool) : pathLe a b || pathLe b a := by
  unfold pathLe
  by_cases hab : a.1 = b.1
  · rw [if_pos hab, if_pos hab.symm]
    cases a.2 <;> cases b.2 <;> simp
  · rw [if_neg hab, if_neg (fun hh => hab hh.symm)]
    rcases lexLe_total a.1 b.1 with h | h <;> simp [h]

theorem mapLookup_cons {α : Type} (p : Str × α) (rest : List (Str × α)) (x : Str) :
    mapLookup (p :: rest) x = if p.1 = x then some p.2 else mapLookup rest x := rfl

theorem mapLookup_insert {α : Type} (m : List (Str × α)) (k x : Str) (v : α) :
    mapLookup (mapInsert m k v) x = if x = k then some v else mapLookup m x := by
  induction m with
  | nil =>
    show mapLookup [(k, v)] x = _
    by_cases h : x = k
    · rw [if_pos h]
      unfold mapLookup
      rw [if_pos h.symm]
    · rw [if_neg h]
      unfold mapLookup
      rw [if_neg (fun hh => h hh.symm)]
      rfl
  | cons p rest ih =>
    unfold mapInsert at ih ⊢
    rw [List.filter_cons]
    by_cases hp : p.1 = k
    · rw [if_neg (by simp [hp])]
      rw [ih]
      by_cases hx : x = k
      · rw [if_pos hx, if_pos hx]
      · rw [if_neg hx, if_neg hx]
        rw [mapLookup_cons, if_neg (by rw [hp]; exact fun hh => hx hh.symm)]
    · rw [if_pos (by simp [hp])]
      rw [List.cons_append]
      show (if p.1 = x then some p.2 else mapLookup (List.filter _ rest ++ [(k, v)]) x) = _
      by_cases hpx : p.1 = x
      · rw [if_pos hpx]
        have hx : ¬ x = k := fun hh => hp (hpx.trans hh)
        rw [if_neg hx]
        unfold mapLookup
        rw [if_pos hpx]
      · rw [if_neg hpx, ih]
        by_cases hx : x = k
        · rw [if_pos hx, if_pos hx]
        · rw [if_neg hx, if_neg hx]
          rw [mapLookup_cons, if_neg hpx]

theorem mapInsert_keys_nodup {α : Type} {m : List (Str × α)}
    (h : (m.map Prod.fst).Nodup) (k : Str) (v : α) :
    ((mapInsert m k v).map Prod.fst).Nodup := by
  unfold mapInsert
  rw [List.map_append]
  apply List.Nodup.append
  · exact ((List.filter_sublist m).map Prod.fst).nodup h
  · simp
  · intro x hx hx2
    simp only [List.map_cons, List.map_nil, List.mem_singleton] at hx2
    subst hx2
    obtain ⟨p, hp, hpk⟩ := List.mem_map.mp hx
    have h2 := (List.mem_filter.mp hp).2
    simp only [Bool.not_eq_true', decide_eq_false_iff_not] at h2
    exact h2 hpk

theorem mapLookup_mem_iff {α : Type} {m : List (Str × α)}
    (h : (m.map Prod.fst).Nodup) (k : Str) (v : α) :
    (k, v) ∈ m ↔ mapLookup m k = some v := by
  induction m with
  | nil => simp [mapLookup]
  | cons p rest ih =>
    rw [List.map_cons, List.nodup_cons] at h
    constructor
    · intro hm
      rcases List.mem_cons.mp hm with heq | hm2
      · rw [← heq]
        unfold mapLookup
        rw [if_pos rfl]
      · have hk : p.1 ≠ k := by
          intro hh
          apply h.1
          rw [hh]
          exact List.mem_map.mpr ⟨(k, v), hm2, rfl⟩
        unfold mapLookup
        rw [if_neg hk]
        exact (ih h.2).mp hm2
    · intro hl
      unfold mapLookup at hl
      by_cases hk : p.1 = k
      · rw [if_pos hk] at hl
        have hv : p.2 = v := Option.some.inj hl
        exact List.mem_cons.mpr (Or.inl (by rw [← hk, ← hv]))
      · rw [if_neg hk] at hl
        exact List.mem_cons.mpr (Or.inr ((ih h.2).mpr hl))

theorem scriptFold_envs_lookup (ops : List ScriptOp) (s : EnvShellScript) (k : Str) :
    mapLookup (ops.foldl scriptStep s).envs k
      = (lastEnvOp ops k).or (mapLookup s.envs k) := by
  induction ops generalizing s with
  | nil => rfl
  | cons op rest ih =>
    rw [List.foldl_cons, ih]
    cases op with
    | env k2 v =>
      rw [show (scriptStep s (.env k2 v)).envs = mapInsert s.envs k2 v from rfl,
        mapLookup_insert]
      cases h : lastEnvOp rest k with
      | some v0 =>
        rw [show lastEnvOp (ScriptOp.env k2 v :: rest) k = some v0 from by
          simp only [lastEnvOp, h]]
        rfl
      | none =>
        rw [show lastEnvOp (ScriptOp.env k2 v :: rest) k
            = (if k2 = k then some v else none) from by simp only [lastEnvOp, h]]
        by_cases hk : k2 = k
        · rw [if_pos hk, if_pos hk.symm]
          rfl
        · rw [if_neg hk, if_neg (fun hh => hk hh.symm)]
    | path p f =>
      rw [show (scriptStep s (.path p f)).envs = s.envs from rfl,
        show lastEnvOp (ScriptOp.path p f :: rest) k = lastEnvOp rest k from by
          cases h : lastEnvOp rest k <;> simp only [lastEnvOp, h]]

theorem scriptFold_paths_lookup (ops : List ScriptOp) (s : EnvShellScript) (p : Str) :
    mapLookup (ops.foldl scriptStep s).paths p
      = (lastPathOp ops p).or (mapLookup s.paths p) := by
  induction ops generalizing s with
  | nil => rfl
  | cons op rest ih =>
    rw [List.foldl_cons, ih]
    cases op with
    | path p2 f =>
      rw [show (scriptStep s (.path p2 f)).paths = mapInsert s.paths p2 f from rfl,
        mapLookup_insert]
      cases h : lastPathOp rest p with
      | some f0 =>
        rw [show lastPathOp (ScriptOp.path p2 f :: rest) p = some f0 from by
          simp only [lastPathOp, h]]
        rfl
      | none =>
        rw [show lastPathOp (ScriptOp.path p2 f :: rest) p
            = (if p2 = p then some f else none) from by simp only [lastPathOp, h]]
        by_cases hp : p2 = p
        · rw [if_pos hp, if_pos hp.symm]
          rfl
        · rw [if_neg hp, if_neg (fun hh => hp hh.symm)]
    | env k2 v =>
      rw [show (scriptStep s (.env k2 v)).paths = s.paths from rfl,
        show lastPathOp (ScriptOp.env k2 v :: rest) p = lastPathOp rest p from by
          cases h : lastPathOp rest p <;> simp only [lastPathOp, h]]

theorem scriptFold_nodup (ops : List ScriptOp) (s : EnvShellScript)
    (h1 : (s.envs.map Prod.fst).Nodup) (h2 : (s.paths.map Prod.fst).Nodup) :
    ((ops.foldl scriptStep s).envs.map Prod.fst).Nodup
      ∧ ((ops.foldl scriptStep s).paths.map Prod.fst).Nodup := by
  induction ops generalizing s with
  | nil => exact ⟨h1, h2⟩
  | cons op rest ih =>
    rw [List.foldl_cons]
    cases op with
    | env k v => exact ih _ (mapInsert_keys_nodup h1 k v) h2
    | path p f => exact ih _ h1 (mapInsert_keys_nodup h2 p f)

theorem pathLe_keys {a b : Str × Bool} (h : pathLe a b = true) : lexLe a.1 b.1 = true := by
  unfold pathLe at h
  by_cases hab : a.1 = b.1
  · rw [hab]
    exact lexLe_refl b.1
  · rwa [if_neg hab] at h

/-- C8: the generated shell script is deterministic: guarded variable
exports come first, sorted lexicographically by name, then the path blocks
sorted lexicographically by directory, with exactly one block per distinct
directory (the last-supplied prepend/append flag wins) and one export per
distinct variable (the last-supplied value wins). -/
theorem gen_shell_script_deterministic (ops : List ScriptOp) :
    ∃ es : List (Str × Str), ∃ ps : List (Str × Bool),
      (applyOps ops).gen_shell_script =
        ((es.map fun p => envLineFor p.1 p.2).flatten
          ++ (ps.map fun p => pathBlockFor p.1 p.2).flatten)
      ∧ es.Pairwise (fun p q => lexLe p.1 q.1 = true)
      ∧ ps.Pairwise (fun p q => lexLe p.1 q.1 = true)
      ∧ (es.map Prod.fst).Nodup
      ∧ (ps.map Prod.fst).Nodup
      ∧ (∀ k v, (k, v) ∈ es ↔ lastEnvOp ops k = some v)
      ∧ (∀ p f, (p, f) ∈ ps ↔ lastPathOp ops p = some f) := by
  have hnodup := scriptFold_nodup ops EnvShellScript.new (by decide) (by decide)
  have hperm_e := List.mergeSort_perm (applyOps ops).envs envLe
  have hperm_p := List.mergeSort_perm (applyOps ops).paths pathLe
  refine ⟨(applyOps ops).envs.mergeSort envLe, (applyOps ops).paths.mergeSort pathLe,
    rfl, ?_, ?_, ?_, ?_, ?_, ?_⟩
  · exact (List.sorted_mergeSort envLe_trans envLe_total (applyOps ops).envs).imp
      (fun h => h)
  · exact (List.sorted_mergeSort pathLe_trans pathLe_total (applyOps ops).paths).imp
      (fun h => pathLe_keys h)
  · exact ((hperm_e.map Prod.fst).nodup_iff).mpr hnodup.1
  · exact ((hperm_p.map Prod.fst).nodup_iff).mpr hnodup.2
  · intro k v
    rw [hperm_e.mem_iff,
      show (applyOps ops).envs = (ops.foldl scriptStep EnvShellScript.new).envs from rfl,
      mapLookup_mem_iff hnodup.1, scriptFold_envs_lookup,
      show mapLookup EnvShellScript.new.envs k = none from rfl, Option.or_none]
  · intro p f
    rw [hperm_p.mem_iff,
      show (applyOps ops).paths = (ops.foldl scriptStep EnvShellScript.new).paths from rfl,
      mapLookup_mem_iff hnodup.2, scriptFold_paths_lookup,
      show mapLookup EnvShellScript.new.paths p = none from rfl, Option.or_none]

theorem valRunAux_append (fuel : Nat) :
    ∀ l : Str, (valRunAux fuel l).1 ++ (valRunAux fuel l).2 = l := by
  induction fuel with
  | zero => intro l; rfl
  | succ fuel ih =>
    intro l
    rcases l with _ | ⟨c, _ | ⟨c2, rest2⟩⟩
    · rfl
    · rw [valRunAux.eq_3]
      by_cases hc : regularChar c = true
      · rw [if_pos hc]
        simpa using ih []
      · rw [if_neg hc]
        by_cases hb : c = '\\' <;> simp [hb]
    · rw [valRunAux.eq_4]
      by_cases hc : regularChar c = true
      · rw [if_pos hc]
        simpa using ih (c2 :: rest2)
      · rw [if_neg hc]
        by_cases hb : c = '\\'
        · rw [if_pos hb]
          simpa using ih rest2
        · rw [if_neg hb]
          rfl


theorem valRun_append (l : Str) : (valRun l).1 ++ (valRun l).2 = l :=
  valRunAux_append l.length l

theorem sepTailAux_append (fuel : Nat) :
    ∀ l : Str, (sepTailAux fuel l).1 ++ (sepTailAux fuel l).2 = l := by
  induction fuel with
  | zero => intro l; rfl
  | succ fuel ih =>
    intro l
    simp only [sepTailAux]
    by_cases hsp : (l.takeWhile isSp).isEmpty = true
    · rw [if_pos hsp]
      rfl
    · rw [if_neg hsp]
      by_cases hp : ((valRun (l.dropWhile isSp)).1).isEmpty = true
      · rw [if_pos hp]
        rfl
      · rw [if_neg hp]
        show (l.takeWhile isSp ++ (valRun (l.dropWhile isSp)).1
            ++ (sepTailAux fuel (valRun (l.dropWhile isSp)).2).1)
            ++ (sepTailAux fuel (valRun (l.dropWhile isSp)).2).2 = l
        rw [List.append_assoc, ih, List.append_assoc, valRun_append,
          List.takeWhile_append_dropWhile]

theorem declarationValue_append (l : Str) :
    (declarationValue l).1 ++ (declarationValue l).2 = l := by
  unfold declarationValue
  by_cases hp : ((valRun l).1).isEmpty = true
  · rw [if_pos hp]
    rfl
  · rw [if_neg hp]
    show ((valRun l).1 ++ (sepTailAux (valRun l).2.length (valRun l).2).1)
        ++ (sepTailAux (valRun l).2.length (valRun l).2).2 = l
    rw [List.append_assoc, sepTailAux_append, valRun_append]

theorem leadingCharacters_append (l : Str) :
    (leadingCharacters l).1 ++ (leadingCharacters l).2 = l := by
  unfold leadingCharacters
  by_cases hpre : exportKw.isPrefixOf (l.dropWhile isSp) = true
  · rw [if_pos hpre]
    obtain ⟨t, ht⟩ : ∃ t, exportKw ++ t = l.dropWhile isSp := by
      rw [List.isPrefixOf_iff_prefix] at hpre
      exact hpre
    have hdrop : (l.dropWhile isSp).drop exportKw.length = t := by
      rw [← ht, List.drop_left]
    show (l.takeWhile isSp ++ exportKw
        ++ ((l.dropWhile isSp).drop exportKw.length).takeWhile isSp)
        ++ ((l.dropWhile isSp).drop exportKw.length).dropWhile isSp = l
    rw [hdrop, List.append_assoc, List.append_assoc,
      List.takeWhile_append_dropWhile, ht, List.takeWhile_append_dropWhile]
  · rw [if_neg hpre]
    exact List.takeWhile_append_dropWhile isSp l

theorem declarationKey_sound {l : Str} {kr : Str × Str}
    (h : declarationKey l = some kr) :
    kr.1 ++ kr.2 = l ∧ kr.1 ≠ [] := by
  unfold declarationKey at h
  by_cases hk : (l.takeWhile keyChar).isEmpty = true
  · rw [if_pos hk] at h
    cases h
  · rw [if_neg hk] at h
    cases h
    exact ⟨List.takeWhile_append_dropWhile keyChar l, by simpa using hk⟩

theorem dropWhile_spec (p : Char → Bool) (l : Str) :
    l.dropWhile p = [] ∨ ∃ c r, l.dropWhile p = c :: r ∧ p c = false := by
  induction l with
  | nil => exact Or.inl rfl
  | cons c rest ih =>
    by_cases hc : p c = true
    · rw [List.dropWhile_cons_of_pos hc]
      exact ih
    · rw [List.dropWhile_cons_of_neg hc]
      exact Or.inr ⟨c, rest, rfl, by simpa using hc⟩

theorem dropWhile_nonNl (l : Str) :
    l.dropWhile nonNl = [] ∨ ∃ r, l.dropWhile nonNl = '\n' :: r := by
  rcases dropWhile_spec nonNl l with h | ⟨c, r, h, hc⟩
  · exact Or.inl h
  · refine Or.inr ⟨r, ?_⟩
    have : c = '\n' := by
      unfold nonNl at hc
      simpa using hc
    rw [h, this]

theorem lineEnding_nil : lineEnding [] = none := rfl

theorem lineEnding_nl (r : Str) : lineEnding ('\n' :: r) = some (['\n'], r) := by
  simp [lineEnding]

theorem envStatement_parse_eq (l : Str) :
    EnvStatement.parse l =
      match declarationKey (leadingCharacters l).2 with
      | none => none
      | some kr =>
        match kr.2 with
        | [] => none
        | c :: r3 =>
          if c = '=' then
            match lineEnding ((declarationValue r3).2.dropWhile nonNl) with
            | some p =>
              some (⟨kr.1, (declarationValue r3).1, (leadingCharacters l).1,
                (declarationValue r3).2.takeWhile nonNl⟩, p.2)
            | none =>
              some (⟨kr.1, (declarationValue r3).1, (leadingCharacters l).1,
                (declarationValue r3).2.takeWhile nonNl⟩,
                (declarationValue r3).2.dropWhile nonNl)
          else none := rfl

theorem envStatement_parse_sound {l : Str} {s : EnvStatement} {r : Str}
    (h : EnvStatement.parse l = some (s, r)) :
    s.serialize ++ r = l ∨ (r = [] ∧ s.serialize = l ++ ['\n']) := by
  rw [envStatement_parse_eq] at h
  cases hk : declarationKey (leadingCharacters l).2 with
  | none =>
    simp only [hk] at h
    exact Option.noConfusion h
  | some kr =>
    simp only [hk] at h
    cases hkr : kr.2 with
    | nil =>
      simp only [hkr] at h
      exact Option.noConfusion h
    | cons c r3 =>
      simp only [hkr] at h
      by_cases hc : c = '='
      · rw [if_pos hc] at h
        subst hc
        have hl1 := leadingCharacters_append l
        obtain ⟨hk2, _⟩ := declarationKey_sound hk
        have hv := declarationValue_append r3
        have htw := List.takeWhile_append_dropWhile nonNl (declarationValue r3).2
        have hltotal : (leadingCharacters l).1 ++ (kr.1 ++ ('='
            :: ((declarationValue r3).1 ++ ((declarationValue r3).2.takeWhile nonNl
              ++ (declarationValue r3).2.dropWhile nonNl)))) = l := by
          rw [htw, hv, ← hkr, hk2, hl1]
        rcases dropWhile_nonNl ((declarationValue r3).2) with hd | ⟨rr, hd⟩
        · rw [hd, lineEnding_nil] at h
          simp only [Option.some.injEq, Prod.mk.injEq] at h
          obtain ⟨hs, hr⟩ := h
          subst hs
          subst hr
          right
          refine ⟨rfl, ?_⟩
          conv_rhs => rw [← hltotal]
          rw [hd]
          simp [EnvStatement.serialize, List.append_assoc]
        · rw [hd, lineEnding_nl] at h
          simp only [Option.some.injEq, Prod.mk.injEq] at h
          obtain ⟨hs, hr⟩ := h
          subst hs
          subst hr
          left
          conv_rhs => rw [← hltotal]
          rw [hd]
          simp [EnvStatement.serialize, List.append_assoc]
      · rw [if_neg hc] at h
        cases h

theorem envFileLine_parse_eq (l : Str) :
    EnvFileLine.parse l =
      match EnvStatement.parse l with
      | some p => some (.Env p.1, p.2)
      | none =>
        if (l.takeWhile nonNl).isEmpty = true then
          match lineEnding l with
          | some p => some (.Other ['\n'], p.2)
          | none => none
        else
          match lineEnding (l.dropWhile nonNl) with
          | some p => some (.Other (l.takeWhile nonNl ++ ['\n']), p.2)
          | none => some (.Other (l.takeWhile nonNl ++ ['\n']), l.dropWhile nonNl) := rfl

theorem envStatement_serialize_ne_nil (s : EnvStatement) : s.serialize ≠ [] := by
  unfold EnvStatement.serialize
  simp

theorem envFileLine_parse_progress (l : Str) (hne : l ≠ []) :
    ∃ line r, EnvFileLine.parse l = some (line, r) ∧
      (EnvFileLine.serialize line ++ r = l
        ∨ (r = [] ∧ EnvFileLine.serialize line = l ++ ['\n'])) ∧
      r.length < l.length := by
  cases hp : EnvStatement.parse l with
  | some p =>
    have hsound := envStatement_parse_sound (s := p.1) (r := p.2) (by rw [hp])
    refine ⟨.Env p.1, p.2, ?_, ?_, ?_⟩
    · rw [envFileLine_parse_eq, hp]
    · simpa [EnvFileLine.serialize] using hsound
    · rcases hsound with h3 | ⟨h3, _⟩
      · have hlen : l.length = (EnvStatement.serialize p.1).length + p.2.length := by
          rw [← h3, List.length_append]
        have hpos : 0 < (EnvStatement.serialize p.1).length :=
          List.length_pos.mpr (envStatement_serialize_ne_nil p.1)
        omega
      · rw [h3]
        exact List.length_pos.mpr hne
  | none =>
    by_cases hemp : (l.takeWhile nonNl).isEmpty = true
    · obtain ⟨c, rest, rfl⟩ : ∃ c rest, l = c :: rest := by
        cases l with
        | nil => exact absurd rfl hne
        | cons c rest => exact ⟨c, rest, rfl⟩
      have hc : c = '\n' := by
        by_cases hcc : nonNl c = true
        · rw [List.takeWhile_cons_of_pos hcc] at hemp
          simp at hemp
        · unfold nonNl at hcc
          simpa using hcc
      subst hc
      refine ⟨.Other ['\n'], rest, ?_, Or.inl rfl, by simp⟩
      rw [envFileLine_parse_eq, hp]
      rw [if_pos hemp, lineEnding_nl]
    · have hsplit := List.takeWhile_append_dropWhile nonNl l
      rcases dropWhile_nonNl l with hd | ⟨rr, hd⟩
      · refine ⟨.Other (l.takeWhile nonNl ++ ['\n']), [], ?_, ?_, List.length_pos.mpr hne⟩
        · rw [envFileLine_parse_eq, hp, if_neg hemp, hd, lineEnding_nil]
        · right
          refine ⟨rfl, ?_⟩
          have hl2 : l = l.takeWhile nonNl := by
            conv_lhs => rw [← hsplit]
            rw [hd, List.append_nil]
          show l.takeWhile nonNl ++ ['\n'] = l ++ ['\n']
          conv_rhs => rw [hl2]
      · refine ⟨.Other (l.takeWhile nonNl ++ ['\n']), rr, ?_, ?_, ?_⟩
        · rw [envFileLine_parse_eq, hp, if_neg hemp, hd, lineEnding_nl]
        · left
          show (l.takeWhile nonNl ++ ['\n']) ++ rr = l
          conv_rhs => rw [← hsplit]
          rw [hd]
          simp
        · have hlen : l.length = (l.takeWhile nonNl).length + 1 + rr.length := by
            conv_lhs => rw [← hsplit]
            rw [hd]
            simp [List.length_append]
            omega
          omega

theorem serializeLines_cons (line : EnvFileLine) (rest : List EnvFileLine) :
    serializeLines (line :: rest) = EnvFileLine.serialize line ++ serializeLines rest := by
  simp [serializeLines]

theorem parseLinesAux_nil (fuel : Nat) : parseLinesAux fuel [] = [] := by
  cases fuel <;> rfl

theorem parseLinesAux_roundtrip (fuel : Nat) :
    ∀ l : Str, l.length ≤ fuel →
      serializeLines (parseLinesAux fuel l) = l
      ∨ serializeLines (parseLinesAux fuel l) = l ++ ['\n'] := by
  induction fuel with
  | zero =>
    intro l hl
    have : l = [] := List.eq_nil_of_length_eq_zero (by omega)
    subst this
    exact Or.inl rfl
  | succ fuel ih =>
    intro l hl
    cases l with
    | nil => exact Or.inl rfl
    | cons c rest =>
      obtain ⟨line, r, hp, hsr, hlen⟩ := envFileLine_parse_progress (c :: rest) (by simp)
      rw [show parseLinesAux (fuel + 1) (c :: rest)
          = (match EnvFileLine.parse (c :: rest) with
             | some p => p.1 :: parseLinesAux fuel p.2
             | none => []) from rfl, hp]
      rcases hsr with h3 | ⟨h3, h4⟩
      · have hr : r.length ≤ fuel := by
          simp only [List.length_cons] at hlen hl
          omega
        rcases ih r hr with h2 | h2
        · left
          rw [serializeLines_cons, h2, h3]
        · right
          rw [serializeLines_cons, h2, ← List.append_assoc, h3]
      · subst h3
        right
        rw [serializeLines_cons, parseLinesAux_nil]
        show EnvFileLine.serialize line ++ serializeLines [] = c :: rest ++ ['\n']
        rw [show serializeLines [] = [] from rfl, List.append_nil, h4]

/-- C1: serializing the document obtained by parsing any input reproduces
the input byte-for-byte, except that a line terminator is appended when the
trailing line is unterminated. -/
theorem parse_serialize_roundtrip (l : Str) :
    serializeLines (parseLines l) = l ∨ serializeLines (parseLines l) = l ++ ['\n'] :=
  parseLinesAux_roundtrip l.length l (le_refl _)

end Envfile
